import Mathlib

/-!
# A verification development for the payload content-accumulation core

This file gives a shallow embedding of the content-accumulation engine
(`Payload`, `TreeState`, `TreeHeadState`) and proves or refutes the frozen
claims about it.

Modelling conventions:
* `AccumulatedContent` (`{head, body}` records of strings) is a two-field
  structure, as in the source.
* A node's entries (`#out` in the source, an array of `string | Payload`)
  become a `List Entry`, where `Entry` is either a raw string fragment or a
  child node.
* Promises are modelled explicitly: a node's `promises.initial` becomes a
  Boolean flag (`true` = an unsettled promise is stored), and
  `promises.followup` becomes the list of deferred compaction tasks, each
  represented by the entry range it will eventually collect, transform and
  push.  Synchronous code that would observe a `Promise` object observes the
  corresponding marker; code that would `await` is modelled separately (see
  the suspending-collection section), where a pending node's `out` list
  denotes its entries once the producer has settled.
* Fallible code (`collect`, which `throw`s on asynchronous work) returns
  `Except String`.
-/

/-- The two output channels (`PayloadType` in the source: `'head' | 'body'`). -/
inductive Channel : Type where
  | head
  | body
deriving DecidableEq, Repr

/-- A `{ head, body }` record of accumulated strings (`AccumulatedContent`). -/
structure AccumulatedContent : Type where
  head : String
  body : String
deriving DecidableEq, Repr

namespace AccumulatedContent

/-- The fresh accumulator `{ head: '', body: '' }`. -/
def empty : AccumulatedContent := ⟨"", ""⟩

/-- Source `content[current_type] += item`: append a fragment to one channel. -/
def add (c : AccumulatedContent) (t : Channel) (s : String) : AccumulatedContent :=
  match t with
  | .head => { c with head := c.head ++ s }
  | .body => { c with body := c.body ++ s }

/-- Channel-wise concatenation of two accumulated contents. -/
def app (a b : AccumulatedContent) : AccumulatedContent :=
  ⟨a.head ++ b.head, a.body ++ b.body⟩

theorem app_assoc (a b c : AccumulatedContent) : (a.app b).app c = a.app (b.app c) := by
  simp [app, String.append_assoc]

theorem empty_app (a : AccumulatedContent) : empty.app a = a := by
  simp [app, empty]

theorem app_empty (a : AccumulatedContent) : a.app empty = a := by
  simp [app, empty]

theorem add_eq_app (c : AccumulatedContent) (t : Channel) (s : String) :
    c.add t s = c.app (empty.add t s) := by
  cases t <;> simp [add, app, empty]

end AccumulatedContent

/-- One slot of a payload's `#out` array: a raw string fragment or a child
payload.  A child payload (`node`) carries, in source order:
* `type` — the channel its direct string fragments belong to;
* `initial` — whether `promises.initial` currently holds an unsettled
  promise (the producer passed to `child` returned a promise that has not
  yet resolved);
* `followup` — `promises.followup`: the deferred compaction tasks registered
  on the node, each identified by the spliced-out entry range that the
  pending followup future will collect, transform and push (the transform
  itself is never inspected by any collector, which either ignores the list
  or merely awaits it, so the range suffices to represent the task);
* `out` — the node's own `#out` array.

The `parent` back-reference, the shared `TreeState` and the branch-local
record are omitted from the tree type: no collection routine reads them
(they are modelled separately where a claim needs them). -/
inductive Entry : Type where
  | str (s : String) : Entry
  | node (type : Channel) (initial : Bool) (followup : List (List Entry))
      (out : List Entry) : Entry

/-- A payload seen as a root object: the same four fields a child node
carries (`type`, `promises.initial`, `promises.followup`, `#out`). -/
structure Payload : Type where
  type : Channel
  initial : Bool
  followup : List (List Entry)
  out : List Entry

/-- View a payload as an entry of an enclosing `#out` array. -/
def Payload.toEntry (p : Payload) : Entry :=
  .node p.type p.initial p.followup p.out

/-- Source `#squash_accumulated_content`: reduce a list of accumulated contents to
one record by channel-wise concatenation, starting from `{head:'',body:''}`. -/
def squash_accumulated_content (l : List AccumulatedContent) : AccumulatedContent :=
  l.foldl (fun acc c => ⟨acc.head ++ c.head, acc.body ++ c.body⟩) ⟨"", ""⟩

/-- The `flush` closure of `#collect_content`: push the running accumulator
onto the segment list when it is non-empty, and reset it (the reset is the
fresh accumulator the continuation starts from). -/
def flushSeg (c : AccumulatedContent) (segs : List (Option AccumulatedContent)) :
    List (Option AccumulatedContent) :=
  if c.head = "" ∧ c.body = "" then segs else some c :: segs

/-- The synchronous view of a segment list: `some` of the segment values in
their original index order when every segment is synchronously available,
`none` when any segment is a promise.  This models the source's `has_async`
flag together with `Promise.all`, whose result array stores each value at
its segment's index regardless of settlement order (the settlement-order
invariance of that reassembly is proved in the suspending-collection
section). -/
def resolve_segments : List (Option AccumulatedContent) → Option (List AccumulatedContent)
  | [] => some []
  | none :: _ => none
  | some c :: rest => (resolve_segments rest).map (c :: ·)

/-- The segment-building loop of `#collect_content` (source lines 179–212).
Strings are appended to the running accumulator under the ambient channel;
on a child boundary the accumulator is flushed and the child contributes a
segment of its own: a pending promise (`none`, standing for the
`#collect_content_async` promise the source pushes — a value unavailable
synchronously) when the child's `promises.initial` is set, otherwise the
recursive synchronous collection of the child's `#out` under the child's own
`type` (which is `none` exactly when that recursion saw a promise, i.e. set
`has_async`). -/
def collect_segments : List Entry → Channel → AccumulatedContent →
    List (Option AccumulatedContent)
  | [], _, content => flushSeg content []
  | .str s :: rest, t, content => collect_segments rest t (content.add t s)
  | .node ty pending _fus out :: rest, t, content =>
      flushSeg content
        ((if pending then none
          else (resolve_segments (collect_segments out ty ⟨"", ""⟩)).map
            squash_accumulated_content) ::
          collect_segments rest t ⟨"", ""⟩)

/-- Source `#collect_content`: collect the segments, and — modelling
`has_async ? Promise.all(segments).then(squash) : squash(segments)` — return
the squashed contents when every segment is synchronously available. -/
def collect_content (items : List Entry) (t : Channel) : Option AccumulatedContent :=
  (resolve_segments (collect_segments items t ⟨"", ""⟩)).map squash_accumulated_content

/-- Source `collect()`: synchronous collection of `this.#out` under `this.type`;
throws when the content is a promise. -/
def Payload.collect (p : Payload) : Except String AccumulatedContent :=
  match collect_content p.out p.type with
  | some c => .ok c
  | none => .error "Encountered an asynchronous component while rendering synchronously"

/-- Source `push(content)`: append a raw fragment to `#out`. -/
def Payload.push (p : Payload) (s : String) : Payload :=
  { p with out := p.out ++ [.str s] }

/-- The constructor's channel defaulting, `type ?? parent?.type ?? 'body'`:
an explicit `type` argument wins, else the parent's `type`, else `'body'`. -/
def constructor_type (ty : Option Channel) (parentType : Option Channel) : Channel :=
  match ty with
  | some t => t
  | none =>
      match parentType with
      | some t => t
      | none => .body

/-- Spec-side definition (after the spec's words, for the refinement
claims): the depth-first, left-to-right concatenation of every pushed
fragment, where each fragment is bucketed into the channel of the node
that owned it at push time — the ambient channel for direct fragments,
each child's own channel while recursing into it. -/
def documentOrder : List Entry → Channel → AccumulatedContent
  | [], _ => ⟨"", ""⟩
  | .str s :: rest, t => (AccumulatedContent.empty.add t s).app (documentOrder rest t)
  | .node ty _ _ out :: rest, t => (documentOrder out ty).app (documentOrder rest t)

/-- No entry (recursively) carries an unsettled `promises.initial` — the
exact condition under which `#collect_content` stays synchronous. -/
def noPendingInit : List Entry → Bool
  | [] => true
  | .str _ :: rest => noPendingInit rest
  | .node _ pending _ out :: rest => !pending && noPendingInit out && noPendingInit rest

/-- No entry (recursively) has any pending asynchronous work at all: neither
an unsettled `promises.initial` nor an undrained `promises.followup`. -/
def settledList : List Entry → Bool
  | [] => true
  | .str _ :: rest => settledList rest
  | .node _ pending fus out :: rest =>
      !pending && fus.isEmpty && settledList out && settledList rest

/-- A payload with no pending asynchronous work anywhere, the root included. -/
def Payload.settled (p : Payload) : Bool :=
  !p.initial && p.followup.isEmpty && settledList p.out

theorem settledList_noPendingInit : ∀ items, settledList items = true →
    noPendingInit items = true := by
  intro items h
  induction items using settledList.induct with
  | case1 => simp [noPendingInit]
  | case2 s rest ih =>
      simp only [settledList] at h
      simp only [noPendingInit]
      exact ih h
  | case3 ty pending fus out rest ih1 ih2 =>
      simp only [settledList, Bool.and_eq_true] at h
      simp only [noPendingInit, Bool.and_eq_true]
      exact ⟨⟨h.1.1.1, ih1 h.1.2⟩, ih2 h.2⟩

theorem squash_foldl (l : List AccumulatedContent) (a : AccumulatedContent) :
    l.foldl (fun acc c => ⟨acc.head ++ c.head, acc.body ++ c.body⟩) a
      = a.app (squash_accumulated_content l) := by
  induction l generalizing a with
  | nil =>
      simp [squash_accumulated_content, AccumulatedContent.app, AccumulatedContent.empty]
  | cons c rest ih =>
      show List.foldl _ (a.app c) rest = a.app (squash_accumulated_content (c :: rest))
      have h2 : squash_accumulated_content (c :: rest)
          = (AccumulatedContent.empty.app c).app (squash_accumulated_content rest) := by
        show List.foldl _ (AccumulatedContent.empty.app c) rest = _
        exact ih _
      rw [ih, h2, AccumulatedContent.empty_app, AccumulatedContent.app_assoc]

theorem squash_cons (c : AccumulatedContent) (l : List AccumulatedContent) :
    squash_accumulated_content (c :: l) = c.app (squash_accumulated_content l) := by
  have h : squash_accumulated_content (c :: l)
      = (AccumulatedContent.empty.app c).app (squash_accumulated_content l) := by
    show List.foldl _ (AccumulatedContent.empty.app c) l = _
    exact squash_foldl l _
  rw [h, AccumulatedContent.empty_app]

theorem squash_nil : squash_accumulated_content [] = AccumulatedContent.empty := rfl

theorem content_eq_empty (c : AccumulatedContent) (h1 : c.head = "") (h2 : c.body = "") :
    c = AccumulatedContent.empty := by
  cases c
  simp_all [AccumulatedContent.empty]

theorem empty_def : (⟨"", ""⟩ : AccumulatedContent) = AccumulatedContent.empty := rfl

theorem app_empty_lit (a : AccumulatedContent) : a.app ⟨"", ""⟩ = a :=
  AccumulatedContent.app_empty a

theorem empty_app_lit (a : AccumulatedContent) : AccumulatedContent.app ⟨"", ""⟩ a = a :=
  AccumulatedContent.empty_app a

theorem resolve_flush (c : AccumulatedContent) (l : List (Option AccumulatedContent)) :
    (resolve_segments (flushSeg c l)).map squash_accumulated_content
      = (resolve_segments l).map (fun L => c.app (squash_accumulated_content L)) := by
  unfold flushSeg
  by_cases h : c.head = "" ∧ c.body = ""
  · rw [if_pos h, content_eq_empty c h.1 h.2]
    cases resolve_segments l <;> simp [AccumulatedContent.empty_app]
  · rw [if_neg h]
    show (resolve_segments (some c :: l)).map _ = _
    rw [resolve_segments]
    cases resolve_segments l <;> simp [squash_cons]

/-- Master characterization of blocking collection: `#collect_content` is a
promise exactly when some entry (recursively) carries an unsettled
`promises.initial`, and otherwise yields the accumulator followed by the
document-order concatenation of the fragments, bucketed per owning channel.
Neither the `followup` lists nor the enclosing node's own `initial` are
consulted. -/
theorem collect_segments_spec (items : List Entry) (t : Channel) (c : AccumulatedContent) :
    (resolve_segments (collect_segments items t c)).map squash_accumulated_content
      = if noPendingInit items then some (c.app (documentOrder items t)) else none := by
  induction items, t, c using collect_segments.induct with
  | case1 t c =>
      rw [collect_segments, resolve_flush, noPendingInit, documentOrder]
      simp [resolve_segments, squash_nil, AccumulatedContent.app_empty, app_empty_lit]
  | case2 s rest t c ih =>
      rw [collect_segments, ih, noPendingInit, documentOrder]
      by_cases h : noPendingInit rest = true
      · rw [if_pos h, if_pos h, AccumulatedContent.add_eq_app, AccumulatedContent.app_assoc]
      · rw [if_neg h, if_neg h]
  | case3 ty pending fus out rest t c ih1 ih2 =>
      rw [collect_segments, resolve_flush]
      simp only [empty_def] at ih1 ih2 ⊢
      cases pending with
      | true =>
          simp only [if_pos rfl, resolve_segments, Option.map_none]
          simp [noPendingInit]
      | false =>
          rw [if_neg (by simp), ih1]
          cases ho : noPendingInit out with
          | false =>
              rw [if_neg (by simp)]
              simp only [resolve_segments, Option.map_none]
              simp [noPendingInit, ho]
          | true =>
              rw [if_pos rfl]
              simp only [resolve_segments]
              cases hres : resolve_segments (collect_segments rest t AccumulatedContent.empty) with
              | none =>
                  rw [hres] at ih2
                  simp only [Option.map_none'] at ih2
                  have hrest : noPendingInit rest = false := by
                    by_contra hcon
                    rw [if_pos (by simpa using hcon)] at ih2
                    exact Option.noConfusion ih2
                  simp [noPendingInit, hrest]
              | some L =>
                  rw [hres] at ih2
                  simp only [Option.map_some'] at ih2
                  have hrest : noPendingInit rest = true := by
                    by_contra hcon
                    rw [if_neg (by simpa using hcon)] at ih2
                    exact Option.noConfusion ih2
                  rw [if_pos hrest] at ih2
                  have hL : squash_accumulated_content L
                      = AccumulatedContent.empty.app (documentOrder rest t) :=
                    Option.some.inj ih2
                  simp only [Option.map_some']
                  rw [noPendingInit]
                  simp only [Bool.not_false, Bool.true_and, ho, hrest, Bool.and_self, if_pos]
                  rw [squash_cons, hL, documentOrder]
                  rw [AccumulatedContent.empty_app, AccumulatedContent.empty_app]

theorem collect_content_spec (items : List Entry) (t : Channel) :
    collect_content items t
      = if noPendingInit items then some (documentOrder items t) else none := by
  rw [collect_content]
  rw [show (⟨"", ""⟩ : AccumulatedContent) = AccumulatedContent.empty from rfl]
  rw [collect_segments_spec]
  by_cases h : noPendingInit items = true
  · rw [if_pos h, if_pos h, AccumulatedContent.empty_app]
  · rw [if_neg h, if_neg h]

/-- C1: on a tree with no pending asynchronous work anywhere, `collect()`
returns the depth-first, left-to-right concatenation of every pushed
fragment, bucketed per channel by the owning node's channel at push time. -/
theorem collect_settled_eq_documentOrder (p : Payload) (h : p.settled = true) :
    p.collect = .ok (documentOrder p.out p.type) := by
  have hn : noPendingInit p.out = true := by
    rw [Payload.settled, Bool.and_eq_true, Bool.and_eq_true] at h
    exact settledList_noPendingInit _ h.2
  rw [Payload.collect, collect_content_spec, if_pos hn]

/-- Witness for C1: a head-channel root with a direct fragment and a
body-channel child — the child's fragment lands in the body string. -/
theorem collect_settled_eq_documentOrder_witness :
    (Payload.settled ⟨.head, false, [], [.str "H", .node .body false [] [.str "B"]]⟩ = true)
    ∧ Payload.collect ⟨.head, false, [], [.str "H", .node .body false [] [.str "B"]]⟩
        = .ok ⟨"H", "B"⟩ := by
  have hs : Payload.settled ⟨.head, false, [], [.str "H", .node .body false [] [.str "B"]]⟩
      = true := by
    simp [Payload.settled, settledList]
  refine ⟨hs, (collect_settled_eq_documentOrder _ hs).trans ?_⟩
  simp [documentOrder, AccumulatedContent.app, AccumulatedContent.add, AccumulatedContent.empty]

/-- A value that is either immediately available or a promise; `later a`
carries the value the promise will eventually resolve to. -/
inductive MaybePromise (α : Type) : Type where
  | now (a : α) : MaybePromise α
  | later (a : α) : MaybePromise α

/-- Source `#push_accumulated_content(tree, accumulated_content)`: for each channel
entry of the record — in the `{head, body}` insertion order every
accumulated content in this module is built with — skip empty strings,
otherwise append to `tree.#out` a fresh child of that channel holding the
fragment. -/
def push_accumulated_content (tree : Entry) (ac : AccumulatedContent) : Entry :=
  match tree with
  | .str s => .str s
  | .node ty p fus out =>
      let out1 := if ac.head = "" then out else out ++ [.node .head false [] [.str ac.head]]
      let out2 := if ac.body = "" then out1 else out1 ++ [.node .body false [] [.str ac.body]]
      .node ty p fus out2

/-- What `#push_accumulated_content` does with the value `compact`'s
synchronous branch passes it, namely `fn(content)`: when the transform
returned a promise instead of a record, `Object.entries` of that promise
yields no own enumerable properties, so the loop body never runs and
nothing is pushed. -/
def push_accumulated_content_result (tree : Entry) :
    MaybePromise AccumulatedContent → Entry
  | .now ac => push_accumulated_content tree ac
  | .later _ => tree

/-- Source `compact({start, end, fn})` (lines 106–121): splice the half-open
range `[start, end)` out of `#out` — with `Array.prototype.splice`'s index
clamping — replacing it with one fresh empty child (whose channel defaults
to this node's, per the constructor); synchronously collect the spliced
range under this node's channel; if that collection is a promise, register
the deferred collect→transform→push sequence as a followup on this node
(represented by the spliced range the followup will process); otherwise
apply `fn` eagerly and hand its result to `#push_accumulated_content` on
the placeholder. -/
def Payload.compact (p : Payload) (start : Nat) (endOpt : Option Nat)
    (fn : AccumulatedContent → MaybePromise AccumulatedContent) : Payload :=
  let end_ := endOpt.getD p.out.length
  let s := min start p.out.length
  let delCount := min (end_ - start) (p.out.length - s)
  let to_compact := (p.out.drop s).take delCount
  let child : Entry := .node p.type false [] []
  match collect_content to_compact p.type with
  | some content =>
      { p with out := p.out.take s
          ++ [push_accumulated_content_result child (fn content)]
          ++ p.out.drop (s + delCount) }
  | none =>
      { p with out := p.out.take s ++ [child] ++ p.out.drop (s + delCount),
               followup := p.followup ++ [to_compact] }

theorem noPendingInit_append (l1 l2 : List Entry) :
    noPendingInit (l1 ++ l2) = (noPendingInit l1 && noPendingInit l2) := by
  induction l1 with
  | nil => simp [noPendingInit]
  | cons e rest ih =>
      cases e with
      | str s => rw [List.cons_append, noPendingInit, ih, noPendingInit]
      | node ty pending fus out =>
          rw [List.cons_append, noPendingInit, ih, noPendingInit]
          simp [Bool.and_assoc]

theorem documentOrder_append (l1 l2 : List Entry) (t : Channel) :
    documentOrder (l1 ++ l2) t = (documentOrder l1 t).app (documentOrder l2 t) := by
  induction l1 with
  | nil => simp [documentOrder, AccumulatedContent.empty_app, empty_app_lit]
  | cons e rest ih =>
      cases e with
      | str s =>
          rw [List.cons_append, documentOrder, ih, documentOrder,
            AccumulatedContent.app_assoc]
      | node ty pending fus out =>
          rw [List.cons_append, documentOrder, ih, documentOrder,
            AccumulatedContent.app_assoc]

theorem push_empty_noPendingInit (ty : Channel) (c : AccumulatedContent) :
    noPendingInit [push_accumulated_content (.node ty false [] []) c] = true := by
  rw [push_accumulated_content]
  by_cases hh : c.head = "" <;> by_cases hb : c.body = "" <;>
    simp [hh, hb, noPendingInit]

theorem push_empty_documentOrder (ty t : Channel) (c : AccumulatedContent) :
    documentOrder [push_accumulated_content (.node ty false [] []) c] t = c := by
  obtain ⟨h, b⟩ := c
  rw [push_accumulated_content]
  by_cases hh : h = "" <;> by_cases hb : b = "" <;>
    simp_all [documentOrder, app_empty_lit, empty_app_lit,
      AccumulatedContent.add, AccumulatedContent.app, AccumulatedContent.empty,
      String.append_empty, String.empty_append]

theorem compact_splice_arith (A R C : List Entry) :
    (min A.length (A ++ R ++ C).length = A.length)
    ∧ (min (A.length + R.length - A.length) ((A ++ R ++ C).length - A.length) = R.length)
    ∧ ((A ++ R ++ C).drop A.length = R ++ C)
    ∧ ((R ++ C).take R.length = R)
    ∧ ((A ++ R ++ C).take A.length = A)
    ∧ ((A ++ R ++ C).drop (A.length + R.length) = C) := by
  have hlen : (A ++ R ++ C).length = A.length + R.length + C.length := by
    simp [List.length_append]
    omega
  refine ⟨by rw [hlen]; omega, by rw [hlen]; omega, ?_, List.take_left R C, ?_, ?_⟩
  · rw [List.append_assoc]
    exact List.drop_left A (R ++ C)
  · rw [List.append_assoc]
    exact List.take_left A (R ++ C)
  · rw [← List.length_append A R]
    exact List.drop_left (A ++ R) C

theorem compact_decompose_sync (pt : Channel) (pi : Bool) (pf : List (List Entry))
    (A R C : List Entry) (fn : AccumulatedContent → MaybePromise AccumulatedContent)
    (content : AccumulatedContent) (hcc : collect_content R pt = some content) :
    Payload.compact ⟨pt, pi, pf, A ++ R ++ C⟩ A.length (some (A.length + R.length)) fn
      = ⟨pt, pi, pf, A ++ [push_accumulated_content_result (.node pt false [] [])
          (fn content)] ++ C⟩ := by
  obtain ⟨h1, h2, h3, h4, h5, h6⟩ := compact_splice_arith A R C
  simp only [Payload.compact, Option.getD_some, h1, h2, h3, h4, h5, h6, hcc]

theorem compact_decompose_async (pt : Channel) (pi : Bool) (pf : List (List Entry))
    (A R C : List Entry) (fn : AccumulatedContent → MaybePromise AccumulatedContent)
    (hcc : collect_content R pt = none) :
    Payload.compact ⟨pt, pi, pf, A ++ R ++ C⟩ A.length (some (A.length + R.length)) fn
      = ⟨pt, pi, pf ++ [R], A ++ [.node pt false [] []] ++ C⟩ := by
  obtain ⟨h1, h2, h3, h4, h5, h6⟩ := compact_splice_arith A R C
  simp only [Payload.compact, Option.getD_some, h1, h2, h3, h4, h5, h6, hcc]

theorem Payload.collect_spec (p : Payload) :
    p.collect = if noPendingInit p.out then Except.ok (documentOrder p.out p.type)
      else Except.error
        "Encountered an asynchronous component while rendering synchronously" := by
  by_cases h : noPendingInit p.out = true
  · rw [Payload.collect, collect_content_spec, if_pos h, if_pos h]
  · rw [Payload.collect, collect_content_spec, if_neg h, if_neg h]

/-- C6: compacting an already-settled range `[start, end)` of a node's
entries with the identity transform leaves the node's collected two-channel
content unchanged. -/
theorem compact_identity_roundtrip (p : Payload) (A R C : List Entry)
    (hout : p.out = A ++ R ++ C) (hR : settledList R = true) :
    (p.compact A.length (some (A.length + R.length))
        (fun c => MaybePromise.now c)).collect = p.collect := by
  have hnR : noPendingInit R = true := settledList_noPendingInit R hR
  obtain ⟨pt, pi, pf, pout⟩ := p
  simp only at hout
  subst hout
  have hcc : collect_content R pt = some (documentOrder R pt) := by
    rw [collect_content_spec, if_pos hnR]
  rw [compact_decompose_sync pt pi pf A R C _ _ hcc]
  rw [Payload.collect_spec, Payload.collect_spec]
  simp only [push_accumulated_content_result, noPendingInit_append, documentOrder_append,
    push_empty_noPendingInit, push_empty_documentOrder, hnR, Bool.and_true, Bool.true_and]

/-- Witness for C6: compacting the settled singleton range `[1, 2)` of a
two-fragment body payload. -/
theorem compact_identity_roundtrip_witness :
    (Payload.compact ⟨.body, false, [], [.str "x", .str "y"]⟩ 1 (some 2)
        (fun c => MaybePromise.now c)).collect
      = Payload.collect ⟨.body, false, [], [.str "x", .str "y"]⟩ :=
  compact_identity_roundtrip ⟨.body, false, [], [.str "x", .str "y"]⟩
    [.str "x"] [.str "y"] [] rfl (by simp [settledList])

/-- C3 demonstration: compacting a range that contains an asynchronous child
registers a followup on the node, and a subsequent `collect()` — which only
inspects `promises.initial` of the entries, never the node's `followup`
list — succeeds with `{head:'', body:''}`, silently omitting the fragment
`"a"` that the spliced-out child already held, instead of failing with the
asynchronous-component error. -/
theorem collect_ignores_pending_followup :
    (Payload.compact ⟨.body, false, [], [Entry.node .body true [] [.str "a"]]⟩ 0 (some 1)
        (fun c => MaybePromise.now c)).followup
      = [[Entry.node .body true [] [.str "a"]]]
    ∧ (Payload.compact ⟨.body, false, [], [Entry.node .body true [] [.str "a"]]⟩ 0 (some 1)
        (fun c => MaybePromise.now c)).collect = .ok ⟨"", ""⟩ := by
  have hcc : collect_content [Entry.node .body true [] [.str "a"]] .body = none := by
    rw [collect_content_spec]
    simp [noPendingInit]
  have hdec := compact_decompose_async .body false [] []
    [Entry.node .body true [] [.str "a"]] [] (fun c => MaybePromise.now c) hcc
  simp only [List.length_nil, List.length_cons, List.nil_append, List.append_nil,
    Nat.zero_add] at hdec
  rw [hdec, Payload.collect_spec]
  refine ⟨rfl, ?_⟩
  simp [noPendingInit, documentOrder, app_empty_lit, empty_app_lit]

/-- C5 demonstration: compacting a fully settled range with a transform that
suspends (returns a promise) runs the eager branch: `fn`'s promise is handed
to `#push_accumulated_content`, whose `Object.entries` loop finds no
enumerable properties, so nothing is pushed into the placeholder and no
followup is registered — the range's content `"a"` is dropped outright
rather than the collect→transform→push sequence being deferred. -/
theorem compact_async_transform_drops_content :
    (Payload.compact ⟨.body, false, [], [.str "a"]⟩ 0 (some 1)
        (fun c => MaybePromise.later c)).followup = []
    ∧ (Payload.compact ⟨.body, false, [], [.str "a"]⟩ 0 (some 1)
        (fun c => MaybePromise.later c)).collect = .ok ⟨"", ""⟩
    ∧ Payload.collect ⟨.body, false, [], [.str "a"]⟩ = .ok ⟨"", "a"⟩ := by
  have hcc : collect_content [Entry.str "a"] .body = some ⟨"", "a"⟩ := by
    rw [collect_content_spec]
    simp [noPendingInit, documentOrder, app_empty_lit, AccumulatedContent.add,
      AccumulatedContent.empty, String.empty_append]
  have hdec := compact_decompose_sync .body false [] [] [Entry.str "a"] []
    (fun c => MaybePromise.later c) ⟨"", "a"⟩ hcc
  simp only [List.length_nil, List.length_cons, List.nil_append, List.append_nil,
    Nat.zero_add] at hdec
  rw [hdec]
  refine ⟨rfl, ?_, ?_⟩
  · rw [Payload.collect_spec]
    simp [push_accumulated_content_result, noPendingInit, documentOrder,
      app_empty_lit, empty_app_lit]
  · rw [Payload.collect_spec]
    simp [noPendingInit, documentOrder, app_empty_lit, AccumulatedContent.add,
      AccumulatedContent.empty, String.empty_append]

/-- The per-entry mapping `subsume` performs over `other.#out`: each child
payload gets `item.subsume(item)` applied — a self-subsume, which recursively
re-maps the child's own entries the same way — and the item itself is kept
in the array (strings pass through untouched). -/
def subsume_self_list : List Entry → List Entry
  | [] => []
  | .str s :: rest => .str s :: subsume_self_list rest
  | .node ty p fus out :: rest =>
      .node ty p fus (subsume_self_list out) :: subsume_self_list rest

/-- Source `subsume(other)` (lines 155–166) on the payload fields: in place,
replaces this node's entries (each child mapped through the self-subsume
above), promises and channel with `other`'s.  The source additionally merges
`other`'s TreeState into this node's and takes over `other`'s branch-local
record; those two fields are modelled in the TreeState section and are never
read by any collection routine. -/
def Payload.subsume (a other : Payload) : Payload :=
  { a with type := other.type, initial := other.initial,
           followup := other.followup, out := subsume_self_list other.out }

theorem subsume_self_list_eq (l : List Entry) : subsume_self_list l = l := by
  induction l using subsume_self_list.induct with
  | case1 => rw [subsume_self_list]
  | case2 s rest ih => rw [subsume_self_list, ih]
  | case3 ty p fus out rest ih1 ih2 => rw [subsume_self_list, ih1, ih2]

/-- C9: for fully settled payloads, after `a.subsume(b)` collecting `a`
returns exactly what collecting `b` returns. -/
theorem subsume_collect_eq (a b : Payload) (ha : a.settled = true)
    (hb : b.settled = true) : (a.subsume b).collect = b.collect := by
  rw [Payload.collect_spec, Payload.collect_spec]
  simp only [Payload.subsume, subsume_self_list_eq]

/-- Witness for C9 at concrete settled payloads of different channels. -/
theorem subsume_collect_eq_witness :
    (Payload.subsume ⟨.head, false, [], [.str "h"]⟩ ⟨.body, false, [], [.str "b"]⟩).collect
      = Payload.collect ⟨.body, false, [], [.str "b"]⟩ :=
  subsume_collect_eq ⟨.head, false, [], [.str "h"]⟩ ⟨.body, false, [], [.str "b"]⟩
    (by simp [Payload.settled, settledList]) (by simp [Payload.settled, settledList])

/-- A stored or candidate title: `{ path: number[], value: string }`. -/
structure TitleRecord : Type where
  path : List Nat
  value : String
deriving DecidableEq, Repr

/-- The comparison loop of the `TreeHeadState.title` setter (source lines
358–373), index by index: a contender whose path is exhausted first is
earlier (keep current); when the current path is exhausted first, or the
contender's segment is strictly greater, the contender is later (replace);
a strictly smaller segment keeps current; equal segments continue; fully
equal paths fall through to keep. -/
def title_later : List Nat → List Nat → Bool
  | [], _ => false
  | _ :: _, [] => true
  | c :: cs, s :: ss =>
      if c > s then true else if c < s then false else title_later cs ss

/-- The `title` setter: store the contender `{path, value}` when the loop
decides it is later, otherwise keep the stored record.  (The source writes
the two fields of the stored record in place; on an isolated record that is
this functional update — the aliasing consequence of the in-place write is
modelled in the TreeState section.) -/
def set_title (cur cand : TitleRecord) : TitleRecord :=
  if title_later cand.path cur.path then ⟨cand.path, cand.value⟩ else cur

theorem title_later_iff_lex (c s : List Nat) :
    title_later c s = true ↔ List.Lex (· < ·) s c := by
  induction c generalizing s with
  | nil =>
      rw [title_later]
      constructor
      · intro h
        exact absurd h (by simp)
      · intro h
        cases h
  | cons ch ct ih =>
      cases s with
      | nil =>
          rw [title_later]
          exact ⟨fun _ => List.Lex.nil, fun _ => rfl⟩
      | cons sh st =>
          rw [title_later]
          by_cases h1 : sh < ch
          · rw [if_pos h1]
            exact ⟨fun _ => List.Lex.rel h1, fun _ => rfl⟩
          · rw [if_neg h1]
            by_cases h2 : ch < sh
            · rw [if_pos h2]
              constructor
              · intro h
                exact absurd h (by simp)
              · intro h
                cases h with
                | rel hr => exact absurd hr h1
                | cons hc => exact absurd h2 (lt_irrefl _)
            · rw [if_neg h2]
              have heq : sh = ch := Nat.le_antisymm (Nat.not_lt.mp h2) (Nat.not_lt.mp h1)
              subst heq
              rw [ih]
              constructor
              · intro h
                exact List.Lex.cons h
              · intro h
                cases h with
                | rel hr => exact absurd hr (lt_irrefl _)
                | cons hc => exact hc

theorem title_later_self (p : List Nat) : title_later p p = false := by
  induction p with
  | nil => rw [title_later]
  | cons h t ih =>
      rw [title_later]
      simp [ih]

/-- C4: the title assignment replaces the stored record exactly when the
candidate's path is lexicographically later (index-by-index, a path running
out first being earlier), an equal path never overwrites, and applying
candidates at paths `[0]`, `[1]`, `[0,1]` in any of the six arrival orders
leaves the value supplied at path `[1]` stored. -/
theorem title_assignment_rule :
    (∀ cand cur : List Nat, title_later cand cur = true ↔ List.Lex (· < ·) cur cand)
    ∧ (∀ cur cand : TitleRecord, cand.path = cur.path → set_title cur cand = cur)
    ∧ (∀ v0 v1 v01 : String,
        (set_title (set_title (set_title ⟨[], ""⟩ ⟨[0], v0⟩) ⟨[1], v1⟩) ⟨[0, 1], v01⟩
          = ⟨[1], v1⟩)
        ∧ (set_title (set_title (set_title ⟨[], ""⟩ ⟨[0], v0⟩) ⟨[0, 1], v01⟩) ⟨[1], v1⟩
          = ⟨[1], v1⟩)
        ∧ (set_title (set_title (set_title ⟨[], ""⟩ ⟨[1], v1⟩) ⟨[0], v0⟩) ⟨[0, 1], v01⟩
          = ⟨[1], v1⟩)
        ∧ (set_title (set_title (set_title ⟨[], ""⟩ ⟨[1], v1⟩) ⟨[0, 1], v01⟩) ⟨[0], v0⟩
          = ⟨[1], v1⟩)
        ∧ (set_title (set_title (set_title ⟨[], ""⟩ ⟨[0, 1], v01⟩) ⟨[0], v0⟩) ⟨[1], v1⟩
          = ⟨[1], v1⟩)
        ∧ (set_title (set_title (set_title ⟨[], ""⟩ ⟨[0, 1], v01⟩) ⟨[1], v1⟩) ⟨[0], v0⟩
          = ⟨[1], v1⟩)) := by
  refine ⟨title_later_iff_lex, fun cur cand hp => ?_, fun v0 v1 v01 => ?_⟩
  · rw [set_title, hp, title_later_self, if_neg (by simp)]
  · refine ⟨?_, ?_, ?_, ?_, ?_, ?_⟩ <;> simp [set_title, title_later]

/-- Witness for C4: the iff at concrete paths, and an equal-path candidate
failing to overwrite. -/
theorem title_assignment_rule_witness :
    set_title ⟨[2], "first"⟩ ⟨[2], "second"⟩ = ⟨[2], "first"⟩ :=
  title_assignment_rule.2.1 ⟨[2], "first"⟩ ⟨[2], "second"⟩ rfl

/-- A style record `{ hash, code }`. -/
structure CssRecord : Type where
  hash : String
  code : String
deriving DecidableEq, Repr

/-- The JS `Set` of style records (`TreeState.#css`, `TreeHeadState.#css`),
in insertion order.  `Set.prototype.add` appends the record unless it is
already a member; membership is SameValueZero on object references, and two
records that differ in any field are necessarily distinct objects, so
whole-record equality models membership for them. -/
def css_add (s : List CssRecord) (r : CssRecord) : List CssRecord :=
  if r ∈ s then s else s ++ [r]

/-- The mutable store of title records.  `TreeHeadState.#title` holds a
reference (an index) into it; the store makes the setter's in-place field
writes (source lines 367–368) and the record sharing of
`TreeHeadState.copy` observable. -/
abbrev TitleStore := List TitleRecord

/-- Model of `TreeHeadState`: its css set and the reference to its title record.
The `#uid` generator is never read by anything modelled here and is
omitted. -/
structure TreeHeadState : Type where
  css : List CssRecord
  titleRef : Nat
deriving DecidableEq, Repr

/-- Model of `TreeState`: the tree-wide css set and the head state (`#uid` omitted
as above). -/
structure TreeState : Type where
  css : List CssRecord
  head : TreeHeadState
deriving DecidableEq, Repr

/-- Source `TreeHeadState.copy()`: a fresh head state whose css is a new `Set` with
the same members — but whose `#title` is rebound (source line 389,
`head_state.#title = this.title`) to the very record object the original
holds, so the copy carries the same store reference, not a fresh record
(the record the constructor freshly allocated is discarded). -/
def TreeHeadState.copy (s : TreeHeadState) : TreeHeadState :=
  ⟨s.css, s.titleRef⟩

/-- Source `TreeState.copy()`: a new css `Set` instance with the same members, and
the head state copied as above. -/
def TreeState.copy (s : TreeState) : TreeState :=
  ⟨s.css, s.head.copy⟩

/-- Read the stored title through a head state's reference. -/
def TreeHeadState.getTitle (s : TreeHeadState) (store : TitleStore) : TitleRecord :=
  store.getD s.titleRef ⟨[], ""⟩

/-- The `title` setter acting on the store: compare the contender against
the record this head state references and, on a win, write the contender's
`path` and `value` into that record in place. -/
def TreeHeadState.setTitle (s : TreeHeadState) (cand : TitleRecord)
    (store : TitleStore) : TitleStore :=
  if title_later cand.path (s.getTitle store).path
  then store.set s.titleRef ⟨cand.path, cand.value⟩
  else store

/-- C7 counterexample: pushing two records with the same hash but different
`code` into a fresh TreeState's css set leaves two entries with that hash,
not exactly one. -/
theorem css_dedup_by_hash_counterexample :
    ¬ (((css_add (css_add (TreeState.mk [] ⟨[], 0⟩).css ⟨"h", "a"⟩) ⟨"h", "b"⟩).filter
        (fun r => r.hash == "h")).length = 1) := by
  decide

/-- C7 amended: the css set deduplicates by record identity, not by hash —
two records with the same hash but different code are both kept (exactly two
entries for that hash), while re-adding an identical record is a no-op. -/
theorem css_dedup_by_record (h c1 c2 : String) (hne : c1 ≠ c2) :
    ((css_add (css_add [] ⟨h, c1⟩) ⟨h, c2⟩).filter (fun r => r.hash == h)).length = 2
    ∧ css_add (css_add [] ⟨h, c1⟩) ⟨h, c1⟩ = [⟨h, c1⟩] := by
  constructor
  · have h1 : css_add [] ⟨h, c1⟩ = [⟨h, c1⟩] := by
      simp [css_add]
    have h2 : css_add [⟨h, c1⟩] ⟨h, c2⟩ = [⟨h, c1⟩, ⟨h, c2⟩] := by
      rw [css_add, if_neg]
      · rfl
      · simp [hne.symm]
    rw [h1, h2]
    simp [List.filter]
  · simp [css_add]

/-- Witness for C7's amended claim at concrete records. -/
theorem css_dedup_by_record_witness :
    ((css_add (css_add [] ⟨"x", "a"⟩) ⟨"x", "b"⟩).filter (fun r => r.hash == "x")).length = 2
    ∧ css_add (css_add [] ⟨"x", "a"⟩) ⟨"x", "a"⟩ = [⟨"x", "a"⟩] :=
  css_dedup_by_record "x" "a" "b" (by decide)

/-- C8 counterexample: with the original's stored title `{path:[0],
value:"old"}`, assigning the winning candidate `{path:[1], value:"new"}`
through `copy()`'s head state mutates the shared record, so the original no
longer reads its previous value — its stored title did not stay unchanged. -/
theorem copy_title_shared_counterexample :
    ¬ ((TreeState.mk [] ⟨[], 0⟩).head.getTitle
          (((TreeState.mk [] ⟨[], 0⟩).copy).head.setTitle ⟨[1], "new"⟩ [⟨[0], "old"⟩])
        = (TreeState.mk [] ⟨[], 0⟩).head.getTitle [⟨[0], "old"⟩]) := by
  decide

/-- C8 amended: `TreeState.copy()` shares the stored title record with the
original (the copy rebinds to the same mutable record, and a winning
assignment writes it in place), so after a candidate wins through the copy,
the original's stored title equals the candidate's `{path, value}` instead
of remaining unchanged. -/
theorem copy_title_shared (s : TreeState) (store : TitleStore) (cand : TitleRecord)
    (href : s.head.titleRef < store.length)
    (hwin : title_later cand.path ((s.copy).head.getTitle store).path = true) :
    s.head.getTitle ((s.copy).head.setTitle cand store) = ⟨cand.path, cand.value⟩ := by
  rw [TreeHeadState.setTitle, if_pos hwin]
  have hcopyref : (s.copy).head.titleRef = s.head.titleRef := rfl
  rw [hcopyref, TreeHeadState.getTitle, List.getD_eq_getElem?_getD,
    List.getElem?_set_self href, Option.getD_some]

/-- Witness for C8's amended claim at a concrete state and store. -/
theorem copy_title_shared_witness :
    (TreeState.mk [] ⟨[], 0⟩).head.getTitle
        (((TreeState.mk [] ⟨[], 0⟩).copy).head.setTitle ⟨[1], "new"⟩ [⟨[0], "old"⟩])
      = ⟨[1], "new"⟩ :=
  copy_title_shared (TreeState.mk [] ⟨[], 0⟩) [⟨[0], "old"⟩] ⟨[1], "new"⟩
    (by decide) (by decide)

/-- Source `#collect_content_async` (lines 231–249): walk the items
sequentially, appending strings to the shared accumulator under the ambient
channel; at a child, await its `initial` promise — after which the child's
`#out` is complete (in this suspending model every node's `out` denotes its
entries once its producer has settled) — then await each followup in
registration order (their pushes are then reflected in the entries), then
recurse into the child's entries under the child's own channel, accumulating
into the same record. -/
def collect_content_async : List Entry → Channel → AccumulatedContent → AccumulatedContent
  | [], _, content => content
  | .str s :: rest, t, content => collect_content_async rest t (content.add t s)
  | .node ty _pending _fus out :: rest, t, content =>
      collect_content_async rest t (collect_content_async out ty content)

/-- Model of the `Promise.all` result assembly: the result array stores segment
value at index `i` at the moment that segment settles; `order` lists the
segment indices in real-time settlement order. -/
def fill_slots (vals : List AccumulatedContent) (order : List Nat)
    (slots : List (Option AccumulatedContent)) : List (Option AccumulatedContent) :=
  order.foldl (fun acc i => acc.set i (some (vals.getD i AccumulatedContent.empty))) slots

/-- The array `Promise.all` resolves with, given the segments' eventual
values and their real-time settlement order. -/
def promise_all (vals : List AccumulatedContent) (order : List Nat) :
    List AccumulatedContent :=
  (fill_slots vals order (List.replicate vals.length none)).map
    (fun o => o.getD AccumulatedContent.empty)

theorem fill_slots_getElem? (vals : List AccumulatedContent) (order : List Nat)
    (slots : List (Option AccumulatedContent)) (j : Nat) :
    (fill_slots vals order slots)[j]?
      = if j ∈ order ∧ j < slots.length
        then some (some (vals.getD j AccumulatedContent.empty))
        else slots[j]? := by
  induction order generalizing slots with
  | nil => simp [fill_slots]
  | cons i rest ih =>
      have hstep : fill_slots vals (i :: rest) slots
          = fill_slots vals rest
              (slots.set i (some (vals.getD i AccumulatedContent.empty))) := rfl
      rw [hstep, ih]
      by_cases hj : j < slots.length
      · by_cases hmem : j ∈ rest
        · rw [if_pos ⟨hmem, by simpa using hj⟩, if_pos ⟨by simp [hmem], hj⟩]
        · rw [if_neg (by simp [hmem])]
          by_cases hij : j = i
          · subst hij
            rw [List.getElem?_set_self hj, if_pos ⟨by simp, hj⟩]
          · rw [List.getElem?_set_ne (fun h => hij h.symm),
              if_neg (by simp [hmem, hij])]
      · have hnot1 : ¬ (j ∈ rest
            ∧ j < (slots.set i (some (vals.getD i AccumulatedContent.empty))).length) :=
          fun hc => hj (by simpa using hc.2)
        have hnot2 : ¬ (j ∈ i :: rest ∧ j < slots.length) := fun hc => hj hc.2
        rw [if_neg hnot1, if_neg hnot2]
        by_cases hij : j = i
        · subst hij
          rw [List.getElem?_eq_none (by simpa using Nat.le_of_not_lt hj),
            List.getElem?_eq_none (Nat.le_of_not_lt hj)]
        · rw [List.getElem?_set_ne (fun h => hij h.symm)]

/-- Settlement-order invariance of `Promise.all`: as long as every segment
settles exactly once — `order` is a permutation of the indices — the
resolved array is the segments' values in index order, whatever the
real-time settlement order was. -/
theorem promise_all_perm (vals : List AccumulatedContent) (order : List Nat)
    (hperm : order.Perm (List.range vals.length)) : promise_all vals order = vals := by
  apply List.ext_getElem?
  intro j
  rw [promise_all, List.getElem?_map, fill_slots_getElem?]
  by_cases hj : j < vals.length
  · have hmem : j ∈ order := hperm.mem_iff.mpr (List.mem_range.mpr hj)
    rw [if_pos ⟨hmem, by simpa using hj⟩]
    rw [List.getD_eq_getElem?_getD, List.getElem?_eq_getElem hj]
    simp
  · have hge := Nat.le_of_not_lt hj
    have hmem : j ∉ order := fun hc => hj (List.mem_range.mp (hperm.mem_iff.mp hc))
    rw [if_neg (by simp [hmem])]
    rw [List.getElem?_eq_none (by simpa using hge), List.getElem?_eq_none hge]
    rfl

/-- The flush step of the suspended-world segment builder, on resolved
contents. -/
def flushSegR (c : AccumulatedContent) (segs : List AccumulatedContent) :
    List AccumulatedContent :=
  if c.head = "" ∧ c.body = "" then segs else c :: segs

/-- The segment loop of `#collect_content` as observed by a suspending
caller once every promise involved has settled.  `σ path n` gives the
real-time settlement order of the `n` segments passed to the `Promise.all`
performed for the node at structural position `path` (sibling indices from
the collection root).  A pending child's segment is the settled value of
the `#collect_content_async` promise pushed for it; a non-pending child's
segment is the settled value of the recursive `#collect_content`, which at
its own site squashes its segments directly when it stayed synchronous
(`noPendingInit`, the source's `has_async` test) and otherwise squashes
what its own `Promise.all` resolved with. -/
def collect_segmentsR (σ : List Nat → Nat → List Nat) :
    List Nat → List Entry → Nat → Channel → AccumulatedContent →
      List AccumulatedContent
  | _, [], _, _, content => flushSegR content []
  | path, .str s :: rest, i, t, content =>
      collect_segmentsR σ path rest (i + 1) t (content.add t s)
  | path, .node ty pending fus out :: rest, i, t, content =>
      flushSegR content
        ((if pending
          then collect_content_async [.node ty pending fus out] t ⟨"", ""⟩
          else
            (fun segs =>
              if noPendingInit out then squash_accumulated_content segs
              else squash_accumulated_content
                (promise_all segs (σ (path ++ [i]) segs.length)))
            (collect_segmentsR σ (path ++ [i]) out 0 ty ⟨"", ""⟩)) ::
          collect_segmentsR σ path rest (i + 1) t ⟨"", ""⟩)

/-- Source `#collect_content` seen by a suspending caller: build the segments for
the node at `path`, then either squash directly (no asynchronous work) or
squash the array `Promise.all` resolves with under settlement order
`σ path n`. -/
def collect_contentR (σ : List Nat → Nat → List Nat) (path : List Nat)
    (items : List Entry) (t : Channel) : AccumulatedContent :=
  let segs := collect_segmentsR σ path items 0 t ⟨"", ""⟩
  if noPendingInit items then squash_accumulated_content segs
  else squash_accumulated_content (promise_all segs (σ path segs.length))

/-- Awaiting a payload — its `then` (source lines 89–92): the caller
receives the settled value of `#collect_content([this], this.type)`. -/
def Payload.thenCollect (σ : List Nat → Nat → List Nat) (p : Payload) :
    AccumulatedContent :=
  collect_contentR σ [] [p.toEntry] p.type

theorem documentOrder_nil (t : Channel) : documentOrder [] t = AccumulatedContent.empty := by
  rw [documentOrder]
  exact empty_def

theorem collect_content_async_spec (items : List Entry) (t : Channel)
    (c : AccumulatedContent) :
    collect_content_async items t c = c.app (documentOrder items t) := by
  induction items, t, c using collect_content_async.induct with
  | case1 t c =>
      rw [collect_content_async, documentOrder_nil, AccumulatedContent.app_empty]
  | case2 s rest t c ih =>
      rw [collect_content_async, ih, documentOrder, AccumulatedContent.add_eq_app,
        AccumulatedContent.app_assoc]
  | case3 ty p fus out rest t c ih1 ih2 =>
      rw [collect_content_async, ih2, ih1, documentOrder, AccumulatedContent.app_assoc]

theorem squash_flushSegR (c : AccumulatedContent) (l : List AccumulatedContent) :
    squash_accumulated_content (flushSegR c l) = c.app (squash_accumulated_content l) := by
  rw [flushSegR]
  by_cases h : c.head = "" ∧ c.body = ""
  · rw [if_pos h, content_eq_empty c h.1 h.2, AccumulatedContent.empty_app]
  · rw [if_neg h, squash_cons]

theorem collect_segmentsR_spec (σ : List Nat → Nat → List Nat)
    (hσ : ∀ path n, (σ path n).Perm (List.range n)) (path : List Nat)
    (items : List Entry) (i : Nat) (t : Channel) (c : AccumulatedContent) :
    squash_accumulated_content (collect_segmentsR σ path items i t c)
      = c.app (documentOrder items t) := by
  induction path, items, i, t, c using collect_segmentsR.induct σ with
  | case1 path t c =>
      rw [collect_segmentsR, squash_flushSegR, squash_nil, documentOrder_nil]
  | case2 path s rest i t c ih =>
      rw [collect_segmentsR, ih, documentOrder, AccumulatedContent.add_eq_app,
        AccumulatedContent.app_assoc]
  | case3 path ty pending fus out rest i t c ih1 ih2 =>
      rw [collect_segmentsR, squash_flushSegR, squash_cons, ih2]
      have hchild :
          (if pending
            then collect_content_async [.node ty pending fus out] t ⟨"", ""⟩
            else
              (fun segs =>
                if noPendingInit out then squash_accumulated_content segs
                else squash_accumulated_content
                  (promise_all segs (σ (path ++ [i]) segs.length)))
              (collect_segmentsR σ (path ++ [i]) out 0 ty ⟨"", ""⟩))
          = documentOrder out ty := by
        cases pending with
        | true =>
            rw [if_pos rfl, collect_content_async_spec, empty_app_lit, documentOrder,
              documentOrder_nil, AccumulatedContent.app_empty]
        | false =>
            rw [if_neg (by simp)]
            simp only []
            by_cases ho : noPendingInit out = true
            · rw [if_pos ho, ih1, empty_app_lit]
            · rw [if_neg ho, promise_all_perm _ _ (hσ _ _), ih1, empty_app_lit]
      rw [empty_app_lit, hchild, documentOrder]

theorem collect_contentR_spec (σ : List Nat → Nat → List Nat)
    (hσ : ∀ path n, (σ path n).Perm (List.range n)) (path : List Nat)
    (items : List Entry) (t : Channel) :
    collect_contentR σ path items t = documentOrder items t := by
  rw [collect_contentR]
  by_cases h : noPendingInit items = true
  · rw [if_pos h, collect_segmentsR_spec σ hσ, empty_app_lit]
  · rw [if_neg h, promise_all_perm _ _ (hσ _ _), collect_segmentsR_spec σ hσ, empty_app_lit]

/-- C2: whatever the real-time settlement order of the asynchronous
producers (any `σ` assigning each `Promise.all` site a permutation of its
segment indices as settlement order), the two-channel result a suspending
collection resolves with equals the document-order concatenation of all
fragments, bucketed per owning channel. -/
theorem thenCollect_documentOrder (σ : List Nat → Nat → List Nat)
    (hσ : ∀ path n, (σ path n).Perm (List.range n)) (p : Payload) :
    p.thenCollect σ = documentOrder [p.toEntry] p.type := by
  rw [Payload.thenCollect, collect_contentR_spec σ hσ]

/-- Witness for C2, the claim's completion-order scenario: two pending
sibling children A and B appended in that order, with the settlement order
reversed at every `Promise.all` site (`σ` = reversed index range, so B's
promise settles before A's at the sibling site): the result still reads
A's content before B's content. -/
theorem thenCollect_documentOrder_witness :
    (∀ path n, ((fun (_ : List Nat) (n : Nat) => (List.range n).reverse) path n).Perm
        (List.range n))
    ∧ Payload.thenCollect (fun _ n => (List.range n).reverse)
        ⟨.body, false, [], [Entry.node .body true [] [.str "A-content"],
          Entry.node .body true [] [.str "B-content"]]⟩
      = ⟨"", "A-contentB-content"⟩ := by
  refine ⟨fun path n => List.reverse_perm _, ?_⟩
  rw [thenCollect_documentOrder (fun _ n => (List.range n).reverse)
    (fun _ n => List.reverse_perm _)]
  simp [Payload.toEntry, documentOrder, AccumulatedContent.app, AccumulatedContent.add,
    AccumulatedContent.empty, String.empty_append, String.append_empty]

theorem string_foldl_append (l : List String) :
    ∀ s : String, l.foldl (fun r s => r ++ s) s = s ++ String.join l := by
  induction l with
  | nil =>
      intro s
      simp [String.join, String.append_empty]
  | cons x rest ih =>
      intro s
      show List.foldl _ (s ++ x) rest = _
      rw [ih]
      have hx : String.join (x :: rest) = ("" ++ x) ++ String.join rest := by
        show List.foldl _ ("" ++ x) rest = _
        exact ih _
      rw [hx, String.empty_append, String.append_assoc]

theorem string_join_cons (x : String) (rest : List String) :
    String.join (x :: rest) = x ++ String.join rest := by
  have hx : String.join (x :: rest) = ("" ++ x) ++ String.join rest := by
    show List.foldl _ ("" ++ x) rest = _
    exact string_foldl_append rest _
  rw [hx, String.empty_append]

/-- C10: a payload constructed with no explicit channel gets `'body'` when it
has no parent and the parent's channel otherwise; consequently every fragment
pushed directly to a default-constructed root is emitted into the body
output. -/
theorem constructor_type_default :
    constructor_type none none = .body
    ∧ (∀ pt : Channel, constructor_type none (some pt) = pt)
    ∧ (∀ ss : List String,
        Payload.collect ⟨constructor_type none none, false, [], ss.map .str⟩
          = .ok ⟨"", String.join ss⟩) := by
  refine ⟨rfl, fun pt => rfl, fun ss => ?_⟩
  have hn : noPendingInit (ss.map .str) = true := by
    induction ss with
    | nil => simp [noPendingInit]
    | cons s rest ih => simpa [noPendingInit] using ih
  rw [show constructor_type none none = .body from rfl, Payload.collect,
    collect_content_spec, if_pos hn]
  have hd : ∀ ss : List String,
      documentOrder (ss.map .str) .body = ⟨"", String.join ss⟩ := by
    intro ss
    induction ss with
    | nil => simp [documentOrder, String.join]
    | cons s rest ih =>
        rw [List.map_cons, documentOrder, ih, string_join_cons]
        simp [AccumulatedContent.app, AccumulatedContent.add, AccumulatedContent.empty,
          String.empty_append]
  rw [hd]
